import Mathlib

/-!
Verification development for the `engine-api` repository.

The repository is a small Node/Express service that ingests web pages into
a MeiliSearch index.  The files modelled here are:

  * `src/index.js`      — main API: `/submit` endpoint with robots check,
                          single-retry backoff, regex extraction, word gate;
  * `src/crawler.js`    — breadth-first crawler bounded by maxPages/maxDepth;
  * `src/unnamed/part_000` (and near-identical `part_003`, `part_004`) —
                          submission-endpoint variants with a token-bucket
                          rate limiter and the `fetchPageText` extractor.

External collaborators (node-fetch responses, cheerio text extraction, the
MeiliSearch sink, Date.now) are modelled as explicit inputs.  JS strings are
modelled as `List Char`; regex-based transformations are embedded as
deterministic scanners that implement the exact semantics of the fixed
patterns appearing in the source.  Fuel arguments, where present, are set by
wrappers to the input length plus one, which is always sufficient because
every scanning step consumes at least one input character.
-/

namespace EngineApi

/-- JS `\s` whitespace class, restricted to the characters that can occur in
this development (ASCII whitespace and NBSP); JS regexes treat all of these
as whitespace. -/
def isJsWs (c : Char) : Bool :=
  c = ' ' || c = '\t' || c = '\n' || c = '\r' || c = '\x0b' || c = '\x0c' ||
  c = ' '

/-- Case-insensitive character comparison, as used by `/i` regex flags. -/
def ciEq (a b : Char) : Bool := a.toLower = b.toLower

/-- Case-insensitive test that `pat` starts the list `l`. -/
def ciStarts : List Char → List Char → Bool
  | [], _ => true
  | _ :: _, [] => false
  | p :: ps, c :: cs => ciEq p c && ciStarts ps cs

/-- Lower-case every character, as JS `String.prototype.toLowerCase` does for
the ASCII strings involved here. -/
def lowerAll (l : List Char) : List Char := l.map Char.toLower

theorem length_dropWhile_le (p : α → Bool) (l : List α) :
    (l.dropWhile p).length ≤ l.length := by
  induction l with
  | nil => simp [List.dropWhile]
  | cons a l ih =>
    by_cases h : p a
    · simp only [List.dropWhile, h]
      exact Nat.le_succ_of_le ih
    · simp [List.dropWhile, h]

/-- Embedding of the JS regex replacement `.replace(/\s+/g, " ")`: every
maximal whitespace run becomes a single space (emitted at the end of the
run). -/
def collapseWs : List Char → List Char
  | [] => []
  | c :: rest =>
    if isJsWs c then
      match rest with
      | [] => [' ']
      | d :: rest' =>
        if isJsWs d then collapseWs (d :: rest') else ' ' :: collapseWs (d :: rest')
    else c :: collapseWs rest

/-- Embedding of JS `String.prototype.trim`: strip leading and trailing
whitespace. -/
def jsTrim (l : List Char) : List Char :=
  ((l.dropWhile isJsWs).reverse.dropWhile isJsWs).reverse

/-- Embedding of JS `str.split(sep)` for a single-character separator string:
`"".split(" ") = [""]`, and every separator occurrence starts a new piece. -/
def jsSplitChar (sep : Char) : List Char → List (List Char)
  | [] => [[]]
  | c :: rest =>
    if c = sep then [] :: jsSplitChar sep rest
    else
      match jsSplitChar sep rest with
      | [] => [[c]]
      | piece :: more => (c :: piece) :: more

/-- Embedding of JS `str.split(/\s+/)`: pieces between maximal whitespace
runs, with an empty leading piece when the string starts with whitespace and
an empty trailing piece when it ends with whitespace;
`"".split(/\s+/) = [""]`. -/
def jsSplitWsRuns : List Char → List (List Char)
  | [] => [[]]
  | c :: rest =>
    if isJsWs c then
      match rest with
      | [] => [[], []]
      | d :: rest' =>
        if isJsWs d then jsSplitWsRuns (d :: rest')
        else [] :: jsSplitWsRuns (d :: rest')
    else
      match jsSplitWsRuns rest with
      | [] => [[c]]
      | piece :: more => (c :: piece) :: more

/-- The maximal whitespace-delimited tokens of a character list (the
specification's notion of "whitespace-delimited tokens"). -/
def tokensOf : List Char → List (List Char)
  | [] => []
  | c :: rest =>
    if isJsWs c then tokensOf rest
    else
      match rest with
      | [] => [[c]]
      | d :: rest' =>
        if isJsWs d then [c] :: tokensOf (d :: rest')
        else
          match tokensOf (d :: rest') with
          | [] => [[c]]
          | piece :: more => (c :: piece) :: more

/-- Number of whitespace-delimited tokens. -/
def tokenCount (l : List Char) : Nat := (tokensOf l).length

/-- Index of the first case-insensitive occurrence of `pat` in `l`. -/
def findCIIdx (pat : List Char) : List Char → Option Nat
  | [] => if pat = [] then some 0 else none
  | c :: rest =>
    if ciStarts pat (c :: rest) then some 0
    else (findCIIdx pat rest).map (· + 1)

/-- Try each `(open, close)` alternative at the current position, in order.
On success return the remainder of the input after the matched lazy block
`open[\s\S]*?close` (case-insensitive, lazy: the block ends at the first
occurrence of `close`). -/
def tryAlts : List (List Char × List Char) → List Char → Option (List Char)
  | [], _ => none
  | (opn, cls) :: ps, l =>
    if ciStarts opn l then
      match findCIIdx cls (l.drop opn.length) with
      | some i => some (l.drop (opn.length + i + cls.length))
      | none => tryAlts ps l
    else tryAlts ps l

/-- Scanner for a global replacement of lazy blocks by a single space, i.e.
`.replace(/o1[\s\S]*?c1|o2[\s\S]*?c2|…/gi, " ")`.  The fuel is set by the
wrapper to the input length plus one, which suffices because every step
consumes at least one input character (all open patterns are nonempty). -/
def stripAltGo (pats : List (List Char × List Char)) : Nat → List Char → List Char
  | 0, l => l
  | _ + 1, [] => []
  | fuel + 1, c :: rest =>
    match tryAlts pats (c :: rest) with
    | some rest' => ' ' :: stripAltGo pats fuel rest'
    | none => c :: stripAltGo pats fuel rest

def stripAlt (pats : List (List Char × List Char)) (l : List Char) : List Char :=
  stripAltGo pats (l.length + 1) l

/-- Single lazy-block replacement, `.replace(/opn[\s\S]*?cls/gi, " ")`. -/
def stripLazy (opn cls : List Char) (l : List Char) : List Char :=
  stripAlt [(opn, cls)] l

/-- Scanner for `.replace(/<[^>]+>/g, " ")`: a `<` followed by at least one
non-`>` character up to the next `>` is replaced by a space. -/
def stripTagsGo : Nat → List Char → List Char
  | 0, l => l
  | _ + 1, [] => []
  | fuel + 1, c :: rest =>
    if c = '<' then
      match rest with
      | [] => ['<']
      | d :: rest' =>
        if d = '>' then '<' :: stripTagsGo fuel rest
        else
          let inner := (d :: rest').takeWhile (fun x => x ≠ '>')
          match (d :: rest').drop inner.length with
          | '>' :: rest'' => ' ' :: stripTagsGo fuel rest''
          | _ => '<' :: stripTagsGo fuel rest
    else c :: stripTagsGo fuel rest

def stripTags (l : List Char) : List Char := stripTagsGo (l.length + 1) l

/-- Scanner for `.replace(/pat/gi, rep)` with a fixed literal pattern. -/
def replaceCIGo (pat rep : List Char) : Nat → List Char → List Char
  | 0, l => l
  | _ + 1, [] => []
  | fuel + 1, c :: rest =>
    if ciStarts pat (c :: rest) then
      rep ++ replaceCIGo pat rep fuel ((c :: rest).drop pat.length)
    else c :: replaceCIGo pat rep fuel rest

def replaceCI (pat rep : List Char) (l : List Char) : List Char :=
  replaceCIGo pat rep (l.length + 1) l

/-! ### Extraction pipelines

`src/index.js` lines 116–124 (the `/submit` "tiny parse") and
`src/unnamed/part_000` lines 52–79 (`fetchPageText`, identical in
`part_003`/`part_004`). -/

/-- `src/index.js:118-122`: body text of the `/submit` handler.
```
const text = html
  .replace(/<script[\s\S]*?<\/script>|<style[\s\S]*?<\/style>/gi," ")
  .replace(/<[^>]+>/g," ")
  .replace(/\s+/g," ")
  .trim();
``` -/
def extractTextIndex (html : List Char) : List Char :=
  jsTrim (collapseWs (stripTags
    (stripAlt [("<script".data, "</script>".data), ("<style".data, "</style>".data)] html)))

/-- `src/unnamed/part_000:63-74`: the `cleaned`/`text` value of
`fetchPageText` — script, style and comment blocks removed, tags stripped,
the four entities decoded, whitespace collapsed, trimmed, then
`.slice(0, 8000)`. -/
def fptClean (html : List Char) : List Char :=
  jsTrim (collapseWs
    (replaceCI "&gt;".data ">".data
      (replaceCI "&lt;".data "<".data
        (replaceCI "&amp;".data "&".data
          (replaceCI "&nbsp;".data " ".data
            (stripTags
              (stripLazy "<!--".data "-->".data
                (stripLazy "<style".data "</style>".data
                  (stripLazy "<script".data "</script>".data html)))))))))

def fptText (html : List Char) : List Char := (fptClean html).take 8000

/-- Attempt of `/<title[^>]*>([^<]{0,200})<\/title>/i` at the current
position (`src/index.js:116`): literal `<title` (case-insensitive), greedy
`[^>]*` up to a `>`, then the captured `[^<]{0,200}` must run exactly to a
case-insensitive `</title>` — so a title text longer than 200 characters
makes the match at this position fail. -/
def titleAtIndex (l : List Char) : Option (List Char) :=
  if ciStarts "<title".data l then
    let rest1 := l.drop 6
    let attrs := rest1.takeWhile (fun c => c ≠ '>')
    match rest1.drop attrs.length with
    | '>' :: rest3 =>
      let run := rest3.takeWhile (fun c => c ≠ '<')
      if run.length ≤ 200 && ciStarts "</title>".data (rest3.drop run.length) then
        some run
      else none
    | _ => none
  else none

/-- Attempt of `/<title[^>]*>([^<]*)<\/title>/i` at the current position
(`src/unnamed/part_000:59`): same, but with an unbounded captured group. -/
def titleAtFP (l : List Char) : Option (List Char) :=
  if ciStarts "<title".data l then
    let rest1 := l.drop 6
    let attrs := rest1.takeWhile (fun c => c ≠ '>')
    match rest1.drop attrs.length with
    | '>' :: rest3 =>
      let run := rest3.takeWhile (fun c => c ≠ '<')
      if ciStarts "</title>".data (rest3.drop run.length) then some run else none
    | _ => none
  else none

/-- Leftmost-match scan for a non-global regex: try every start position from
the left.  Fuel is set to input length plus one by the wrappers. -/
def scanFirst (att : List Char → Option (List Char)) : Nat → List Char → Option (List Char)
  | 0, _ => none
  | _ + 1, [] => att []
  | fuel + 1, c :: rest =>
    match att (c :: rest) with
    | some r => some r
    | none => scanFirst att fuel rest

/-- `src/index.js:116`: `const title = (html.match(/<title...{0,200}.../i) || [,""])[1]`
— the captured group of the first match, or `""`. -/
def titleIndex (html : List Char) : List Char :=
  (scanFirst titleAtIndex (html.length + 1) html).getD []

/-- `src/unnamed/part_000:59-60`: captured group of the first
`<title[^>]*>([^<]*)</title>` match, then `.trim().replace(/\s+/g," ").slice(0,200)`;
`""` when there is no match. -/
def fptTitle (html : List Char) : List Char :=
  match scanFirst titleAtFP (html.length + 1) html with
  | some run => (collapseWs (jsTrim run)).take 200
  | none => []

/-- `src/index.js:124`: `const word_count = text ? text.split(/\s+/).length : 0;`
(an empty string is falsy in JS). -/
def wcIndex (text : List Char) : Nat :=
  if text = [] then 0 else (jsSplitWsRuns text).length

/-- `src/crawler.js:34`: `const wc = text.split(" ").length;`. -/
def wcCrawl (text : List Char) : Nat := (jsSplitChar ' ' text).length

/-- `src/crawler.js:33`: `const text = $("body").text().replace(/\s+/g," ").trim();`
— the cheerio body text is an input to the model. -/
def crawlText (raw : List Char) : List Char := jsTrim (collapseWs raw)

/-- `src/index.js:99`: the robots gate,
`robotsTxt.split("\n").some(l => l.trim().toLowerCase() === "disallow: /")`. -/
def disallowAll (txt : List Char) : Bool :=
  (jsSplitChar '\n' txt).any (fun l => lowerAll (jsTrim l) = "disallow: /".data)

/-! ### SHA-1 (Node `crypto.createHash("sha1").update(s).digest("hex")`)

The `crypto` module is an external dependency; it is embedded here by the
SHA-1 algorithm itself (FIPS 180-4), over the UTF-8 bytes of the input, with
a lowercase hex digest — exactly what the Node call computes. 32-bit machine
words are `Nat` values kept below `2 ^ 32`. -/

def w32 (n : Nat) : Nat := n % 4294967296

def rotl32 (k n : Nat) : Nat := w32 (n * 2 ^ k) + n / 2 ^ (32 - k)

/-- UTF-8 encoding of one character (as byte values). -/
def utf8Bytes (c : Char) : List Nat :=
  let n := c.toNat
  if n < 128 then [n]
  else if n < 2048 then [192 + n / 64, 128 + n % 64]
  else if n < 65536 then [224 + n / 4096, 128 + n / 64 % 64, 128 + n % 64]
  else [240 + n / 262144, 128 + n / 4096 % 64, 128 + n / 64 % 64, 128 + n % 64]

def strBytes (l : List Char) : List Nat :=
  l.foldr (fun c acc => utf8Bytes c ++ acc) []

/-- Big-endian 8-byte encoding of a 64-bit length. -/
def be8 (n : Nat) : List Nat :=
  [n / 2 ^ 56 % 256, n / 2 ^ 48 % 256, n / 2 ^ 40 % 256, n / 2 ^ 32 % 256,
   n / 2 ^ 24 % 256, n / 2 ^ 16 % 256, n / 2 ^ 8 % 256, n % 256]

/-- SHA-1 padding: `0x80`, zeros to 56 mod 64, then the bit length. -/
def shaPad (m : List Nat) : List Nat :=
  m ++ [128] ++ List.replicate ((119 - m.length % 64) % 64) 0 ++ be8 (m.length * 8)

def bytesToWords : List Nat → List Nat
  | a :: b :: c :: d :: rest => (((a * 256 + b) * 256 + c) * 256 + d) :: bytesToWords rest
  | _ => []

def chunks16Go : Nat → List Nat → List (List Nat)
  | 0, _ => []
  | _, [] => []
  | fuel + 1, ws => ws.take 16 :: chunks16Go fuel (ws.drop 16)

def chunks16 (ws : List Nat) : List (List Nat) := chunks16Go ws.length ws

/-- Message-schedule extension: 64 more words, each
`rotl1 (w[t-3] xor w[t-8] xor w[t-14] xor w[t-16])`; the accumulator holds
the words generated so far in reverse order. -/
def schedGo : Nat → List Nat → List Nat
  | 0, acc => acc.reverse
  | k + 1, acc =>
    let nw := rotl32 1 (((acc.getD 2 0) ^^^ (acc.getD 7 0)) ^^^ ((acc.getD 13 0) ^^^ (acc.getD 15 0)))
    schedGo k (nw :: acc)

def schedule (block : List Nat) : List Nat := schedGo 64 block.reverse

def sha1F (t x y z : Nat) : Nat :=
  if t < 20 then (x &&& y) ||| ((4294967295 ^^^ x) &&& z)
  else if t < 40 then (x ^^^ y) ^^^ z
  else if t < 60 then (x &&& y) ||| (x &&& z) ||| (y &&& z)
  else (x ^^^ y) ^^^ z

def sha1K (t : Nat) : Nat :=
  if t < 20 then 1518500249
  else if t < 40 then 1859775393
  else if t < 60 then 2400959708
  else 3395469782

def roundsGo (t : Nat) : List Nat → Nat × Nat × Nat × Nat × Nat → Nat × Nat × Nat × Nat × Nat
  | [], st => st
  | wv :: ws, (a, b, c, d, e) =>
    let tmp := w32 (rotl32 5 a + sha1F t b c d + e + sha1K t + wv)
    roundsGo (t + 1) ws (tmp, a, rotl32 30 b, c, d)

def processBlock (h : Nat × Nat × Nat × Nat × Nat) (block : List Nat) :
    Nat × Nat × Nat × Nat × Nat :=
  match h, roundsGo 0 (schedule block) h with
  | (h0, h1, h2, h3, h4), (a, b, c, d, e) =>
    (w32 (h0 + a), w32 (h1 + b), w32 (h2 + c), w32 (h3 + d), w32 (h4 + e))

def sha1Words (s : List Char) : Nat × Nat × Nat × Nat × Nat :=
  (chunks16 (bytesToWords (shaPad (strBytes s)))).foldl processBlock
    (1732584193, 4023233417, 2562383102, 271733878, 3285377520)

def hexDigit (n : Nat) : Char := "0123456789abcdef".data.getD n '0'

/-- The 40 hex digit values (each `< 16`) of the digest. -/
def sha1digits (s : List Char) : List Nat :=
  match sha1Words s with
  | (a, b, c, d, e) =>
    ([a, b, c, d, e].map (fun w => (List.range 8).map (fun i => w / 2 ^ (28 - 4 * i) % 16))).foldr
      (· ++ ·) []

/-- `crypto.createHash("sha1").update(s).digest("hex")`. -/
def sha1hex (s : List Char) : List Char := (sha1digits s).map hexDigit

/-- `src/index.js:26`: `const safeId = (url) => "u_" + sha1(url);`. -/
def safeId (url : List Char) : List Char := "u_".data ++ sha1hex url

/-- `src/crawler.js:36`: the crawl document id `"u_" + sha1(url)`. -/
def crawlDocId (url : List Char) : List Char := "u_".data ++ sha1hex url

/-- `src/unnamed/part_000:114` (same in `part_003:137`, `part_004:448`): the
submit-variant document id `crypto.createHash("sha1").update(url).digest("hex")`
— no `"u_"` prefixing. -/
def variantSubmitId (url : List Char) : List Char := sha1hex url

/-! ### Token-bucket limiter

`src/unnamed/part_000:29-37` (identical in `part_003:203-217` and
`part_004:373-381`).  Tokens are JS numbers used fractionally; the scenarios
of the claims involve only exact arithmetic, embedded as `ℚ`.  `Date.now()`
timestamps are milliseconds, embedded as `ℤ`. -/

structure Bucket where
  tokens : ℚ
  ts : ℤ
deriving DecidableEq

/-- The refill line
`b.tokens = Math.min(SUBMIT_LIMIT, b.tokens + deltaMin * SUBMIT_LIMIT)` with
`deltaMin = (now - b.ts) / 60000`. -/
def refillTokens (cap : ℚ) (now : ℤ) (b : Bucket) : ℚ :=
  min cap (b.tokens + ((now : ℚ) - (b.ts : ℚ)) / 60000 * cap)

/-- `function allow(ip)` for one client's bucket (`buckets.get(ip)` is the
`Option Bucket` argument; a missing entry starts at full capacity). -/
def allow (cap : ℚ) (now : ℤ) (b : Option Bucket) : Bool × Bucket :=
  let b0 := b.getD ⟨cap, now⟩
  let t1 := refillTokens cap now b0
  if t1 < 1 then (false, ⟨t1, now⟩) else (true, ⟨t1 - 1, now⟩)

/-- Iterate `allow` for `n` consecutive calls at one instant, collecting the
admission results. -/
def runAllow (cap : ℚ) (now : ℤ) : Nat → Option Bucket → List Bool × Option Bucket
  | 0, b => ([], b)
  | n + 1, b =>
    let r := allow cap now b
    let rest := runAllow cap now n (some r.2)
    (r.1 :: rest.1, rest.2)

/-! ### Submission endpoint models -/

/-- Outcome of the limiter-guarded `/submit` variants
(`part_000:106-111`, `part_003:129-134`, `part_004:441-446`): the limiter
runs before the `missing_url` validation; `proceed` stands for the rest of
the handler. -/
inductive VariantOut
  | rateLimited
  | missingUrl
  | proceed
deriving DecidableEq

def submitVariant (cap : ℚ) (now : ℤ) (b : Option Bucket) (hasUrl : Bool) :
    VariantOut × Bucket :=
  let r := allow cap now b
  if !r.1 then (.rateLimited, r.2)
  else if !hasUrl then (.missingUrl, r.2)
  else (.proceed, r.2)

/-- A fetch response as seen by `src/index.js` (`node-fetch`): status plus
body text; `r.ok` is status 200–299. -/
structure PageResp where
  status : Nat
  html : List Char
deriving DecidableEq

def respOk (r : PageResp) : Bool := 200 ≤ r.status && r.status ≤ 299

inductive SubmitResult
  | skippedBlocked
  | errRateLimited
  | errHttp (status : Nat)
  | skippedTooShort
  | resOk
  | errIndexFailed
deriving DecidableEq

/-- Document assembled by `src/index.js:130-142` (fields not involved in any
claim — `meta_desc`, `lang`, `last_modified`, `crawl_id`, `domain`, `tld`,
`country_hint`, `source` — are omitted from the embedding). -/
structure IndexDoc where
  id : List Char
  url : List Char
  title : List Char
  text : List Char
  word_count : Nat
deriving DecidableEq

structure SubmitOut where
  result : SubmitResult
  fetchAttempts : Nat
  upsertCalled : Bool
  doc : Option IndexDoc
deriving DecidableEq

/-- `src/index.js:111-154`: what the `/submit` handler does once it holds a
page response (after the robots gate and the backoff logic): `resp.ok` check,
extraction, word gate, upsert.  `n` is the number of page GETs made so far,
`sinkOk` the MeiliSearch upsert outcome. -/
def afterFetch (url : List Char) (resp : PageResp) (n : Nat) (sinkOk : Bool) : SubmitOut :=
  if !respOk resp then ⟨.errHttp resp.status, n, false, none⟩
  else
    let text := extractTextIndex resp.html
    let wc := wcIndex text
    if wc < 30 then ⟨.skippedTooShort, n, false, none⟩
    else
      let t := titleIndex resp.html
      let doc : IndexDoc := ⟨safeId url, url, if t = [] then url else t, text, wc⟩
      if sinkOk then ⟨.resOk, n, true, some doc⟩
      else ⟨.errIndexFailed, n, true, some doc⟩

/-- `fetch(origin + "/robots.txt").then(r => r.ok ? r.text() : "").catch(() => "")`
(`src/index.js:98`): `none` is a network error. -/
def robotsTextOf : Option (Bool × List Char) → List Char
  | none => []
  | some (ok, t) => if ok then t else []

/-- `src/index.js:91-158`: the `/submit` handler after URL validation and
parsing, as a function of the environment: the robots response, the page
response to each successive GET of `url` (`pages k` is attempt `k`), and the
sink outcome.  Robots gate first (lines 98-100); then the polite fetch with
one retry on 429/503 (lines 104-110). -/
def submitIndex (url : List Char) (robots : Option (Bool × List Char))
    (pages : Nat → PageResp) (sinkOk : Bool) : SubmitOut :=
  if disallowAll (robotsTextOf robots) then ⟨.skippedBlocked, 0, false, none⟩
  else
    let r1 := pages 0
    if r1.status = 429 || r1.status = 503 then
      let r2 := pages 1
      if r2.status = 429 || r2.status = 503 then ⟨.errRateLimited, 2, false, none⟩
      else afterFetch url r2 2 sinkOk
    else afterFetch url r1 1 sinkOk

/-! ### Crawler (`src/crawler.js`) -/

/-- A link as resolved by `new URL(href, url)` — the URL library is an
external dependency, so links arrive already resolved; an href whose
resolution throws is simply absent from the list.  `httpProto` is
`u.protocol.startsWith("http")`. -/
structure LinkInfo where
  href : List Char
  host : List Char
  httpProto : Bool
deriving DecidableEq

/-- A fetched page as seen by the crawler: `res.ok`, whether the
content-type includes `text/html`, the cheerio extractions (external
parser, modelled as inputs), and the resolved links of `a[href]`. -/
structure PageInfo where
  ok : Bool
  isHtml : Bool
  titleRaw : List Char
  bodyRaw : List Char
  links : List LinkInfo
deriving DecidableEq

structure CrawlDoc where
  id : List Char
  url : List Char
  title : List Char
  text : List Char
  word_count : Nat
deriving DecidableEq

/-- `src/crawler.js:31-34,36-37`: document built for one crawled page. -/
def mkCrawlDoc (url : List Char) (p : PageInfo) : CrawlDoc :=
  let text := crawlText p.bodyRaw
  ⟨crawlDocId url, url, p.titleRaw.take 200, text, wcCrawl text⟩

structure CrawlTask where
  url : List Char
  depth : Nat
deriving DecidableEq

/-- `src/crawler.js:54-59`: links enqueued from one page —
`u.hostname === domain && !seen.has(u.href) && u.protocol.startsWith("http")`,
at depth + 1.  `seen` is fixed during the loop over the page's links. -/
def enqueueLinks (domain : List Char) (seen : List (List Char)) (depth : Nat)
    (links : List LinkInfo) : List CrawlTask :=
  (links.filter (fun L => L.host = domain && !(seen.contains L.href) && L.httpProto)).map
    (fun L => ⟨L.href, depth + 1⟩)

/-- `src/crawler.js:20-49`: the crawl loop.
`while (queue.length && seen.size < maxPages)`: dequeue the oldest task, skip
if visited, else mark visited; on a failed fetch (`env url = none`, the
`catch`) or `!res.ok`/non-HTML, continue; otherwise emit the document and,
when `depth < maxDepth`, enqueue the page's admissible links.  `seen` is kept
as the list of visited URLs in visitation order (insertion into a JS `Set`),
`docs` as the emitted documents in order.  The fuel only bounds the number of
loop iterations; wrappers supply enough for the run to finish. -/
def crawlGo (env : List Char → Option PageInfo) (domain : List Char)
    (maxPages maxDepth : Nat) :
    Nat → List CrawlTask → List (List Char) → List CrawlDoc →
    List (List Char) × List CrawlDoc
  | 0, _, seen, docs => (seen, docs)
  | _ + 1, [], seen, docs => (seen, docs)
  | fuel + 1, t :: qs, seen, docs =>
    if seen.length < maxPages then
      if seen.contains t.url then crawlGo env domain maxPages maxDepth fuel qs seen docs
      else
        let seen' := seen ++ [t.url]
        match env t.url with
        | none => crawlGo env domain maxPages maxDepth fuel qs seen' docs
        | some p =>
          if p.ok && p.isHtml then
            let newTasks :=
              if t.depth < maxDepth then enqueueLinks domain seen' t.depth p.links else []
            crawlGo env domain maxPages maxDepth fuel (qs ++ newTasks) seen'
              (docs ++ [mkCrawlDoc t.url p])
          else crawlGo env domain maxPages maxDepth fuel qs seen' docs
    else (seen, docs)

/-- `export async function crawl(seed, {maxPages=25, maxDepth=1}={})`:
initial frontier `[{url: seed, depth: 0}]`, `domain = new URL(seed).hostname`
(resolved hostname supplied as input), empty visited set. -/
def crawl (env : List Char → Option PageInfo) (seed seedHost : List Char)
    (maxPages maxDepth fuel : Nat) : List (List Char) × List CrawlDoc :=
  crawlGo env seedHost maxPages maxDepth fuel [⟨seed, 0⟩] [] []

/-! ### Normalization lemmas -/

/-- Whether a list starts with a whitespace character. -/
def startsWs : List Char → Bool
  | [] => false
  | c :: _ => isJsWs c

/-- Whether a list ends with a whitespace character. -/
def endsWs (l : List Char) : Bool := startsWs l.reverse

/-- No two adjacent whitespace characters. -/
def noWsAdj (l : List Char) : Prop :=
  List.Chain' (fun a b => isJsWs a = false ∨ isJsWs b = false) l

theorem startsWs_append (a b : List Char) :
    startsWs (a ++ b) = if a = [] then startsWs b else startsWs a := by
  cases a <;> simp [startsWs]

theorem startsWs_dropWhile (l : List Char) :
    startsWs (l.dropWhile isJsWs) = false := by
  induction l with
  | nil => rfl
  | cons c rest ih =>
    by_cases h : isJsWs c
    · simpa [List.dropWhile, h] using ih
    · simp [List.dropWhile, h, startsWs]

theorem endsWs_reverse (l : List Char) : endsWs l.reverse = startsWs l := by
  simp [endsWs]

theorem startsWs_jsTrim (l : List Char) : startsWs (jsTrim l) = false := by
  unfold jsTrim
  rcases hs : (((l.dropWhile isJsWs).reverse).dropWhile isJsWs).reverse with _ | ⟨c, t⟩
  · rfl
  · have h1 : startsWs ((l.dropWhile isJsWs)) = false := startsWs_dropWhile l
    have h2 : ((l.dropWhile isJsWs).reverse).dropWhile isJsWs <:+
        (l.dropWhile isJsWs).reverse := List.dropWhile_suffix _
    rcases h2 with ⟨pre, hpre⟩
    have hh : l.dropWhile isJsWs =
        (((l.dropWhile isJsWs).reverse.dropWhile isJsWs).reverse) ++ pre.reverse := by
      have := congrArg List.reverse hpre
      simpa using this.symm
    rw [hs] at hh
    rw [hh, startsWs_append] at h1
    simp only [hs, startsWs] at *
    simpa using h1

theorem endsWs_jsTrim (l : List Char) : endsWs (jsTrim l) = false := by
  unfold jsTrim endsWs
  rw [List.reverse_reverse]
  exact startsWs_dropWhile _

theorem endsWs_cons_cons (c d : Char) (rest : List Char) :
    endsWs (c :: d :: rest) = endsWs (d :: rest) := by
  simp only [endsWs, List.reverse_cons, startsWs_append]
  have h : (d :: rest).reverse ≠ [] := by simp
  simp [h, List.reverse_cons]

theorem endsWs_singleton (c : Char) : endsWs [c] = isJsWs c := rfl

theorem jsSplitWsRuns_ws_ws (c d : Char) (r : List Char) (hc : isJsWs c = true)
    (hd : isJsWs d = true) : jsSplitWsRuns (c :: d :: r) = jsSplitWsRuns (d :: r) := by
  simp [jsSplitWsRuns, hc, hd]

theorem jsSplitWsRuns_ws_nonws (c d : Char) (r : List Char) (hc : isJsWs c = true)
    (hd : isJsWs d = false) :
    jsSplitWsRuns (c :: d :: r) = [] :: jsSplitWsRuns (d :: r) := by
  simp [jsSplitWsRuns, hc, hd]

theorem jsSplitWsRuns_nonws (c : Char) (rest p : List Char) (more : List (List Char))
    (hc : isJsWs c = false) (hr : jsSplitWsRuns rest = p :: more) :
    jsSplitWsRuns (c :: rest) = (c :: p) :: more := by
  cases rest with
  | nil =>
    have hpm : p = [] ∧ more = [] := by
      have := hr.symm
      simpa [jsSplitWsRuns] using this
    rcases hpm with ⟨rfl, rfl⟩
    simp [jsSplitWsRuns, hc]
  | cons d rest' => simp [jsSplitWsRuns, hc, hr]

theorem jsSplitWsRuns_ne_nil (l : List Char) : jsSplitWsRuns l ≠ [] := by
  induction l with
  | nil => simp [jsSplitWsRuns]
  | cons c rest ih =>
    rcases rest with _ | ⟨d, rest'⟩
    · by_cases h : isJsWs c <;> simp [jsSplitWsRuns, h]
    · by_cases h : isJsWs c
      · by_cases hd : isJsWs d
        · simpa [jsSplitWsRuns_ws_ws c d rest' h hd] using ih
        · simp [jsSplitWsRuns_ws_nonws c d rest' h (by simpa using hd)]
      · rcases hsp : jsSplitWsRuns (d :: rest') with _ | ⟨p, more⟩
        · exact absurd hsp ih
        · simp [jsSplitWsRuns_nonws c _ p more (by simpa using h) hsp]

theorem tokensOf_ws (c : Char) (r : List Char) (hc : isJsWs c = true) :
    tokensOf (c :: r) = tokensOf r := by
  cases r with
  | nil => simp [tokensOf, hc]
  | cons d r' => rw [tokensOf, if_pos hc]

theorem tokensOf_nonws_ws (c d : Char) (r : List Char) (hc : isJsWs c = false)
    (hd : isJsWs d = true) : tokensOf (c :: d :: r) = [c] :: tokensOf (d :: r) := by
  simp [tokensOf, hc, hd]

theorem tokensOf_nonws_nonws (c d : Char) (r q : List Char) (qmore : List (List Char))
    (hc : isJsWs c = false) (hd : isJsWs d = false)
    (ht : tokensOf (d :: r) = q :: qmore) :
    tokensOf (c :: d :: r) = (c :: q) :: qmore := by
  simp [tokensOf, hc, hd, ht]

theorem tokensOf_ne_nil : ∀ (rest : List Char) (c : Char), isJsWs c = false →
    tokensOf (c :: rest) ≠ [] := by
  intro rest
  induction rest with
  | nil => intro c hc; simp [tokensOf, hc]
  | cons d rest' ih =>
    intro c hc
    by_cases hd : isJsWs d
    · simp [tokensOf_nonws_ws c d rest' hc hd]
    · rcases ht : tokensOf (d :: rest') with _ | ⟨q, qmore⟩
      · exact absurd ht (ih d (by simpa using hd))
      · simp [tokensOf_nonws_nonws c d rest' q qmore hc (by simpa using hd) ht]

theorem length_jsSplitWsRuns (l : List Char) :
    (jsSplitWsRuns l).length = tokenCount l +
      (if l = [] then 1 else
        (if startsWs l then 1 else 0) + (if endsWs l then 1 else 0)) := by
  induction l with
  | nil => simp [jsSplitWsRuns, tokenCount, tokensOf]
  | cons c rest ih =>
    rcases rest with _ | ⟨d, rest'⟩
    · by_cases h : isJsWs c <;>
        simp [jsSplitWsRuns, tokenCount, tokensOf, startsWs, endsWs_singleton, h]
    · rw [endsWs_cons_cons]
      have hne : (d :: rest' : List Char) ≠ [] := by simp
      have hcons : (c :: d :: rest' : List Char) ≠ [] := by simp
      simp only [hne, hcons, reduceIte] at ih ⊢
      by_cases h : isJsWs c
      · by_cases hd : isJsWs d
        · rw [jsSplitWsRuns_ws_ws c d rest' h hd, tokenCount,
            tokensOf_ws c (d :: rest') h]
          simp [startsWs, h, hd, tokenCount] at ih ⊢
          omega
        · rw [jsSplitWsRuns_ws_nonws c d rest' h (by simpa using hd),
            List.length_cons, tokenCount, tokensOf_ws c (d :: rest') h]
          simp [startsWs, h, hd, tokenCount] at ih ⊢
          omega
      · rcases hsp : jsSplitWsRuns (d :: rest') with _ | ⟨p, more⟩
        · exact absurd hsp (jsSplitWsRuns_ne_nil _)
        · rw [jsSplitWsRuns_nonws c _ p more (by simpa using h) hsp]
          rw [hsp] at ih
          by_cases hd : isJsWs d
          · rw [List.length_cons, tokenCount, tokensOf_nonws_ws c d rest'
              (by simpa using h) hd]
            simp [startsWs, h, hd, tokenCount] at ih ⊢
            omega
          · rcases ht : tokensOf (d :: rest') with _ | ⟨q, qmore⟩
            · exact absurd ht (tokensOf_ne_nil rest' d (by simpa using hd))
            · rw [List.length_cons, tokenCount, tokensOf_nonws_nonws c d rest' q qmore
                (by simpa using h) (by simpa using hd) ht]
              simp [startsWs, h, hd, tokenCount, ht] at ih ⊢
              omega

theorem wcIndex_eq_tokenCount (t : List Char) (h1 : startsWs t = false)
    (h2 : endsWs t = false) : wcIndex t = tokenCount t := by
  rcases ht : t with _ | ⟨c, r⟩
  · simp [wcIndex, tokenCount, tokensOf]
  · rw [wcIndex, if_neg (by simp), length_jsSplitWsRuns]
    subst ht
    simp [h1, h2]

theorem collapseWs_nonws (c : Char) (rest : List Char) (hc : isJsWs c = false) :
    collapseWs (c :: rest) = c :: collapseWs rest := by
  cases rest with
  | nil => simp [collapseWs, hc]
  | cons d rest' => rw [collapseWs, if_neg (by simp [hc])]

theorem collapseWs_ws_nil (c : Char) (hc : isJsWs c = true) :
    collapseWs [c] = [' '] := by
  simp [collapseWs, hc]

theorem collapseWs_ws_ws (c d : Char) (r : List Char) (hc : isJsWs c = true)
    (hd : isJsWs d = true) : collapseWs (c :: d :: r) = collapseWs (d :: r) := by
  simp [collapseWs, hc, hd]

theorem collapseWs_ws_nonws (c d : Char) (r : List Char) (hc : isJsWs c = true)
    (hd : isJsWs d = false) : collapseWs (c :: d :: r) = ' ' :: collapseWs (d :: r) := by
  simp [collapseWs, hc, hd]

theorem head_collapseWs_nonws (d : Char) (r : List Char) (hd : isJsWs d = false) :
    (collapseWs (d :: r)).head? = some d := by
  rw [collapseWs_nonws d r hd]
  rfl

theorem noWsAdj_collapseWs (l : List Char) : noWsAdj (collapseWs l) := by
  induction l with
  | nil => simp [collapseWs, noWsAdj]
  | cons c rest ih =>
    rcases rest with _ | ⟨d, rest'⟩
    · by_cases h : isJsWs c
      · rw [collapseWs_ws_nil c h]; simp [noWsAdj]
      · rw [collapseWs_nonws c [] (by simpa using h)]; simp [collapseWs, noWsAdj]
    · by_cases h : isJsWs c
      · by_cases hd : isJsWs d
        · rw [collapseWs_ws_ws c d rest' h hd]; exact ih
        · rw [collapseWs_ws_nonws c d rest' h (by simpa using hd)]
          rw [noWsAdj, List.chain'_cons']
          refine ⟨?_, ih⟩
          intro y hy
          rw [head_collapseWs_nonws d rest' (by simpa using hd)] at hy
          simp only [Option.mem_def, Option.some.injEq] at hy
          right
          simpa [hy] using hd
      · rw [collapseWs_nonws c _ (by simpa using h)]
        rw [noWsAdj, List.chain'_cons']
        refine ⟨?_, ih⟩
        intro y _
        left
        simpa using h

theorem wsSpace_collapseWs (l : List Char) :
    ∀ c ∈ collapseWs l, isJsWs c = true → c = ' ' := by
  induction l with
  | nil => simp [collapseWs]
  | cons c rest ih =>
    rcases rest with _ | ⟨d, rest'⟩
    · by_cases h : isJsWs c
      · rw [collapseWs_ws_nil c h]; simp
      · rw [collapseWs_nonws c [] (by simpa using h)]
        intro x hx
        simp only [List.mem_cons] at hx
        rcases hx with rfl | hx
        · intro hxx; exact absurd hxx (by simpa using h)
        · simp [collapseWs] at hx
    · by_cases h : isJsWs c
      · by_cases hd : isJsWs d
        · rw [collapseWs_ws_ws c d rest' h hd]; exact ih
        · rw [collapseWs_ws_nonws c d rest' h (by simpa using hd)]
          intro x hx
          simp only [List.mem_cons] at hx
          rcases hx with rfl | hx
          · intro _; rfl
          · exact ih x hx
      · rw [collapseWs_nonws c _ (by simpa using h)]
        intro x hx
        simp only [List.mem_cons] at hx
        rcases hx with rfl | hx
        · intro hxx; exact absurd hxx (by simpa using h)
        · exact ih x hx

theorem noWsAdj_flip (l : List Char) (h : noWsAdj l) : noWsAdj l.reverse := by
  rw [noWsAdj, List.chain'_reverse]
  exact List.Chain'.imp (fun a b hab => hab.symm) h

theorem noWsAdj_dropWhile (p : Char → Bool) (l : List Char) (h : noWsAdj l) :
    noWsAdj (l.dropWhile p) :=
  List.Chain'.suffix h (List.dropWhile_suffix p)

theorem noWsAdj_jsTrim (l : List Char) (h : noWsAdj l) : noWsAdj (jsTrim l) := by
  unfold jsTrim
  exact noWsAdj_flip _ (noWsAdj_dropWhile _ _ (noWsAdj_flip _ (noWsAdj_dropWhile _ _ h)))

theorem mem_jsTrim (l : List Char) (c : Char) (h : c ∈ jsTrim l) : c ∈ l := by
  unfold jsTrim at h
  rw [List.mem_reverse] at h
  have h1 := (List.dropWhile_suffix isJsWs).sublist.subset h
  rw [List.mem_reverse] at h1
  exact (List.dropWhile_suffix isJsWs).sublist.subset h1

theorem jsSplitChar_sep (sep : Char) (rest : List Char) :
    jsSplitChar sep (sep :: rest) = [] :: jsSplitChar sep rest := by
  simp [jsSplitChar]

theorem jsSplitChar_ne_nil (sep : Char) (l : List Char) : jsSplitChar sep l ≠ [] := by
  induction l with
  | nil => simp [jsSplitChar]
  | cons c rest ih =>
    by_cases h : c = sep
    · subst h; simp [jsSplitChar_sep]
    · rw [jsSplitChar, if_neg h]
      split <;> simp

theorem jsSplitChar_nonsep (sep c : Char) (rest p : List Char) (more : List (List Char))
    (hc : c ≠ sep) (hr : jsSplitChar sep rest = p :: more) :
    jsSplitChar sep (c :: rest) = (c :: p) :: more := by
  rw [jsSplitChar, if_neg hc, hr]

theorem length_jsSplitChar_space : ∀ (n : Nat) (l : List Char), l.length ≤ n →
    startsWs l = false → endsWs l = false → noWsAdj l →
    (∀ c ∈ l, isJsWs c = true → c = ' ') → l ≠ [] →
    (jsSplitChar ' ' l).length = tokenCount l := by
  intro n
  induction n with
  | zero =>
    intro l hlen _ _ _ _ hne
    exact absurd (List.length_eq_zero.mp (Nat.le_zero.mp hlen)) hne
  | succ n ih =>
    intro l hlen hs he hadj hsp hne
    rcases l with _ | ⟨c, rest⟩
    · exact absurd rfl hne
    have hc : isJsWs c = false := by simpa [startsWs] using hs
    have hcs : c ≠ ' ' := by
      intro hcc
      subst hcc
      simp [isJsWs] at hc
    rcases rest with _ | ⟨d, rest'⟩
    · rcases hq : jsSplitChar ' ' [] with _ | ⟨p, more⟩
      · exact absurd hq (jsSplitChar_ne_nil _ _)
      · rw [jsSplitChar_nonsep ' ' c [] p more hcs hq]
        have hq' : p = [] ∧ more = [] := by
          have := hq.symm
          simpa [jsSplitChar] using this
        rcases hq' with ⟨rfl, rfl⟩
        simp [tokenCount, tokensOf, hc]
    · by_cases hd : isJsWs d
      · -- `d` is a separator space; the next char exists and is non-ws
        have hdsp : d = ' ' := hsp d (by simp) hd
        subst hdsp
        rcases rest' with _ | ⟨e, rest''⟩
        · exfalso
          have : endsWs (c :: [' ']) = true := by
            rw [endsWs_cons_cons, endsWs_singleton]
            exact hd
          rw [this] at he
          exact absurd he (by simp)
        · have hech : isJsWs e = false := by
            have hpair := hadj
            rw [noWsAdj] at hpair
            rcases List.chain'_cons'.mp hpair with ⟨_, htail⟩
            rcases List.chain'_cons'.mp htail with ⟨hde, _⟩
            have := hde e (by rfl)
            rcases this with h1 | h1
            · exact absurd hd (by simp [h1])
            · exact h1
          rcases hq : jsSplitChar ' ' (e :: rest'') with _ | ⟨p, more⟩
          · exact absurd hq (jsSplitChar_ne_nil _ _)
          · have hrec : (jsSplitChar ' ' (e :: rest'')).length = tokenCount (e :: rest'') := by
              apply ih (e :: rest'')
              · have : (c :: ' ' :: e :: rest'' : List Char).length ≤ n + 1 := hlen
                simpa using Nat.le_of_succ_le_succ (Nat.le_of_succ_le this)
              · simpa [startsWs] using hech
              · rw [← endsWs_cons_cons ' ' e rest'', ← endsWs_cons_cons c ' ' (e :: rest'')]
                exact he
              · rw [noWsAdj] at hadj ⊢
                exact (hadj.tail).tail
              · intro x hx hxx
                exact hsp x (by simp [hx]) hxx
              · simp
            rw [jsSplitChar_nonsep ' ' c (' ' :: e :: rest'') [] (jsSplitChar ' ' (e :: rest''))
                hcs (jsSplitChar_sep ' ' (e :: rest''))]
            rw [tokenCount, tokensOf_nonws_ws c ' ' (e :: rest'') hc (by simp [isJsWs])]
            rw [tokensOf_ws ' ' (e :: rest'') (by simp [isJsWs])]
            rw [hq] at hrec ⊢
            simp only [tokenCount] at hrec
            simp only [List.length_cons] at hrec ⊢
            omega
      · -- two adjacent non-separator chars: both split and tokens merge them
        have hrec : (jsSplitChar ' ' (d :: rest')).length = tokenCount (d :: rest') := by
          apply ih (d :: rest')
          · simpa using Nat.le_of_succ_le_succ hlen
          · simpa [startsWs] using hd
          · rw [← endsWs_cons_cons c d rest']
            exact he
          · rw [noWsAdj] at hadj ⊢
            exact hadj.tail
          · intro x hx hxx
            exact hsp x (by simp [hx]) hxx
          · simp
        have hdch : d ≠ ' ' := by
          intro hdd
          subst hdd
          simp [isJsWs] at hd
        rcases hq : jsSplitChar ' ' (d :: rest') with _ | ⟨p, more⟩
        · exact absurd hq (jsSplitChar_ne_nil _ _)
        · rcases ht : tokensOf (d :: rest') with _ | ⟨q, qmore⟩
          · exact absurd ht (tokensOf_ne_nil rest' d (by simpa using hd))
          · rw [jsSplitChar_nonsep ' ' c (d :: rest') p more hcs hq]
            rw [tokenCount, tokensOf_nonws_nonws c d rest' q qmore hc (by simpa using hd) ht]
            rw [hq] at hrec
            rw [tokenCount, ht] at hrec
            simpa using hrec

/-! ### Token-bucket lemmas -/

theorem allow_none (cap : ℚ) (now : ℤ) :
    allow cap now none = allow cap now (some ⟨cap, now⟩) := rfl

theorem refillTokens_same_instant (cap : ℚ) (now : ℤ) (m : ℚ) (hm : m ≤ cap) :
    refillTokens cap now ⟨m, now⟩ = m := by
  unfold refillTokens
  have h0 : ((now : ℚ) - ((now : ℤ) : ℚ)) / 60000 * cap = 0 := by
    rw [sub_self, zero_div, zero_mul]
  simp only [h0]
  rw [add_zero]
  exact min_eq_right hm

theorem allow_same_instant_spend (cap : ℚ) (now : ℤ) (m : ℚ) (h1 : 1 ≤ m)
    (hm : m ≤ cap) : allow cap now (some ⟨m, now⟩) = (true, ⟨m - 1, now⟩) := by
  unfold allow
  simp only [Option.getD_some]
  rw [refillTokens_same_instant cap now m hm]
  rw [if_neg (not_lt.mpr h1)]

theorem allow_same_instant_deny (cap : ℚ) (now : ℤ) (m : ℚ) (h1 : m < 1)
    (hm : m ≤ cap) : allow cap now (some ⟨m, now⟩) = (false, ⟨m, now⟩) := by
  unfold allow
  simp only [Option.getD_some]
  rw [refillTokens_same_instant cap now m hm]
  rw [if_pos h1]

theorem refillTokens_le (cap : ℚ) (now : ℤ) (b : Bucket) :
    refillTokens cap now b ≤ cap := min_le_left _ _

theorem allow_tokens_le (cap : ℚ) (now : ℤ) (b : Option Bucket) :
    ((allow cap now b).2).tokens ≤ cap := by
  unfold allow
  set t1 := refillTokens cap now (b.getD ⟨cap, now⟩) with ht1
  have hle : t1 ≤ cap := refillTokens_le _ _ _
  by_cases h : t1 < 1
  · simp only [if_pos h]
    exact hle
  · simp only [if_neg h]
    have : t1 - 1 ≤ t1 := by linarith
    exact le_trans this hle

theorem refillTokens_full (cap : ℚ) (now ts : ℤ) (m : ℚ) (hm : 0 ≤ m)
    (hcap : 0 ≤ cap) (hidle : (60000 : ℤ) ≤ now - ts) :
    refillTokens cap now ⟨m, ts⟩ = cap := by
  unfold refillTokens
  apply min_eq_left
  have hd : (1 : ℚ) ≤ ((now : ℚ) - (ts : ℚ)) / 60000 := by
    rw [le_div_iff₀ (by norm_num : (0:ℚ) < 60000)]
    have : ((60000 : ℤ) : ℚ) ≤ ((now - ts : ℤ) : ℚ) := by exact_mod_cast hidle
    push_cast at this
    linarith
  nlinarith

theorem runAllow_full (cap : ℚ) (now : ℤ) :
    ∀ (k : ℕ) (m : ℚ), (k : ℚ) ≤ m → m ≤ cap →
    runAllow cap now k (some ⟨m, now⟩) = (List.replicate k true, some ⟨m - k, now⟩) := by
  intro k
  induction k with
  | zero => intro m _ _; simp [runAllow]
  | succ k ih =>
    intro m hk hm
    have h1 : (1 : ℚ) ≤ m := by
      have : ((k : ℚ) + 1) ≤ m := by push_cast at hk ⊢; linarith
      have hk0 : (0 : ℚ) ≤ (k : ℚ) := by positivity
      linarith
    rw [runAllow]
    simp only [allow_same_instant_spend cap now m h1 hm]
    rw [ih (m - 1) (by push_cast at hk ⊢; linarith) (by linarith)]
    simp only [List.replicate_succ]
    have harith : m - 1 - (k : ℚ) = m - (((k + 1 : ℕ) : ℚ)) := by push_cast; ring
    rw [harith]

theorem runAllow_add (cap : ℚ) (now : ℤ) :
    ∀ (a b : ℕ) (st : Option Bucket),
    runAllow cap now (a + b) st =
      ((runAllow cap now a st).1 ++ (runAllow cap now b (runAllow cap now a st).2).1,
       (runAllow cap now b (runAllow cap now a st).2).2) := by
  intro a
  induction a with
  | zero => intro b st; simp [runAllow]
  | succ a ih =>
    intro b st
    have hcomm : a + 1 + b = (a + b) + 1 := by omega
    rw [hcomm, runAllow, runAllow, ih]
    simp

/-! ### Crawler lemmas -/

theorem wcCrawl_crawlText (raw : List Char) :
    wcCrawl (crawlText raw) =
      if crawlText raw = [] then 1 else tokenCount (crawlText raw) := by
  by_cases h : crawlText raw = []
  · rw [h, if_pos rfl]
    rfl
  · rw [if_neg h]
    unfold wcCrawl crawlText at *
    apply length_jsSplitChar_space (jsTrim (collapseWs raw)).length _ le_rfl
    · exact startsWs_jsTrim _
    · exact endsWs_jsTrim _
    · exact noWsAdj_jsTrim _ (noWsAdj_collapseWs raw)
    · intro c hc hw
      exact wsSpace_collapseWs raw c (mem_jsTrim _ c hc) hw
    · exact h

theorem mkCrawlDoc_wc (url : List Char) (p : PageInfo) :
    (mkCrawlDoc url p).word_count =
      if (mkCrawlDoc url p).text = [] then 1 else tokenCount (mkCrawlDoc url p).text := by
  unfold mkCrawlDoc
  exact wcCrawl_crawlText p.bodyRaw

theorem crawlGo_seen_le (env : List Char → Option PageInfo) (domain : List Char)
    (mp md : Nat) : ∀ (fuel : Nat) (q : List CrawlTask) (seen : List (List Char))
    (docs : List CrawlDoc), seen.length ≤ mp →
    ((crawlGo env domain mp md fuel q seen docs).1).length ≤ mp := by
  intro fuel
  induction fuel with
  | zero => intro q seen docs h; simpa [crawlGo] using h
  | succ fuel ih =>
    intro q seen docs h
    rcases q with _ | ⟨t, qs⟩
    · simpa [crawlGo] using h
    rw [crawlGo]
    by_cases hlt : seen.length < mp
    · rw [if_pos hlt]
      by_cases hseen : seen.contains t.url
      · rw [if_pos hseen]
        exact ih qs seen docs h
      · rw [if_neg hseen]
        have hlen : (seen ++ [t.url]).length ≤ mp := by
          simpa using Nat.succ_le_of_lt hlt
        rcases henv : env t.url with _ | pg
        · exact ih qs _ docs hlen
        · by_cases hok : pg.ok && pg.isHtml
          · simp only [hok, if_pos rfl, reduceIte]
            exact ih _ _ _ hlen
          · simp only [hok, Bool.false_eq_true, reduceIte]
            exact ih qs _ docs hlen
    · rw [if_neg hlt]
      exact h

theorem crawlGo_seen_nodup (env : List Char → Option PageInfo) (domain : List Char)
    (mp md : Nat) : ∀ (fuel : Nat) (q : List CrawlTask) (seen : List (List Char))
    (docs : List CrawlDoc), seen.Nodup →
    ((crawlGo env domain mp md fuel q seen docs).1).Nodup := by
  intro fuel
  induction fuel with
  | zero => intro q seen docs h; simpa [crawlGo] using h
  | succ fuel ih =>
    intro q seen docs h
    rcases q with _ | ⟨t, qs⟩
    · simpa [crawlGo] using h
    rw [crawlGo]
    by_cases hlt : seen.length < mp
    · rw [if_pos hlt]
      by_cases hseen : seen.contains t.url
      · rw [if_pos hseen]
        exact ih qs seen docs h
      · rw [if_neg hseen]
        have hmem : t.url ∉ seen := by
          intro hmem
          exact hseen (List.elem_iff.mpr hmem)
        have hnd : (seen ++ [t.url]).Nodup := by
          rw [List.nodup_append]
          refine ⟨h, List.nodup_singleton _, ?_⟩
          intro a ha hb
          rcases List.mem_singleton.mp hb
          exact hmem ha
        rcases henv : env t.url with _ | pg
        · exact ih qs _ docs hnd
        · by_cases hok : pg.ok && pg.isHtml
          · simp only [hok, reduceIte]
            exact ih _ _ _ hnd
          · simp only [hok, Bool.false_eq_true, reduceIte]
            exact ih qs _ docs hnd
    · rw [if_neg hlt]
      exact h

theorem crawlGo_stop (env : List Char → Option PageInfo) (domain : List Char)
    (mp md fuel : Nat) (q : List CrawlTask) (seen : List (List Char))
    (docs : List CrawlDoc) (h : q = [] ∨ mp ≤ seen.length) :
    crawlGo env domain mp md fuel q seen docs = (seen, docs) := by
  rcases h with rfl | hle
  · cases fuel <;> rfl
  · cases fuel with
    | zero => rfl
    | succ fuel =>
      rcases q with _ | ⟨t, qs⟩
      · rfl
      · rw [crawlGo, if_neg (not_lt.mpr hle)]

theorem crawlGo_docs_wc (env : List Char → Option PageInfo) (domain : List Char)
    (mp md : Nat) : ∀ (fuel : Nat) (q : List CrawlTask) (seen : List (List Char))
    (docs : List CrawlDoc),
    (∀ d ∈ docs, d.word_count = if d.text = [] then 1 else tokenCount d.text) →
    ∀ d ∈ (crawlGo env domain mp md fuel q seen docs).2,
      d.word_count = if d.text = [] then 1 else tokenCount d.text := by
  intro fuel
  induction fuel with
  | zero => intro q seen docs h; simpa [crawlGo] using h
  | succ fuel ih =>
    intro q seen docs h
    rcases q with _ | ⟨t, qs⟩
    · simpa [crawlGo] using h
    rw [crawlGo]
    by_cases hlt : seen.length < mp
    · rw [if_pos hlt]
      by_cases hseen : seen.contains t.url
      · rw [if_pos hseen]
        exact ih qs seen docs h
      · rw [if_neg hseen]
        rcases henv : env t.url with _ | pg
        · exact ih qs _ docs h
        · by_cases hok : pg.ok && pg.isHtml
          · simp only [hok, reduceIte]
            apply ih
            intro d hd
            rcases List.mem_append.mp hd with hd1 | hd2
            · exact h d hd1
            · rcases List.mem_singleton.mp hd2 with rfl
              exact mkCrawlDoc_wc t.url pg
          · simp only [hok, Bool.false_eq_true, reduceIte]
            exact ih qs _ docs h
    · rw [if_neg hlt]
      exact h

/-! ### Title-scan lemmas -/

/-- Whether `html` contains a case-insensitive occurrence of `<title`
anywhere. -/
def hasTitleTag (l : List Char) : Bool :=
  l.tails.any (fun t => ciStarts "<title".data t)

theorem scanFirst_none (att : List Char → Option (List Char))
    (hatt : ∀ l', ciStarts "<title".data l' = false → att l' = none) :
    ∀ (n : Nat) (l : List Char), hasTitleTag l = false → scanFirst att n l = none := by
  intro n
  induction n with
  | zero => intro l _; rfl
  | succ n ih =>
    intro l hl
    rcases l with _ | ⟨c, rest⟩
    · rw [scanFirst]
      rw [hatt [] rfl]
    · rw [scanFirst]
      have hl' : ciStarts "<title".data (c :: rest) = false ∧ hasTitleTag rest = false := by
        have := hl
        unfold hasTitleTag at this ⊢
        rw [List.tails_cons, List.any_cons] at this
        simpa using this
      rw [hatt (c :: rest) hl'.1]
      exact ih rest hl'.2

theorem titleAtIndex_none (l : List Char) (h : ciStarts "<title".data l = false) :
    titleAtIndex l = none := by
  unfold titleAtIndex
  rw [h]
  simp

theorem titleAtFP_none (l : List Char) (h : ciStarts "<title".data l = false) :
    titleAtFP l = none := by
  unfold titleAtFP
  rw [h]
  simp

/-! ### Fingerprint lemmas -/

theorem sha1digits_length (s : List Char) : (sha1digits s).length = 40 := by
  rcases hw : sha1Words s with ⟨a, b, c, d, e⟩
  simp [sha1digits, hw]

theorem sha1digits_lt (s : List Char) : ∀ x ∈ sha1digits s, x < 16 := by
  rcases hw : sha1Words s with ⟨a, b, c, d, e⟩
  intro x hx
  have hgen : ∀ (w y : ℕ), y ∈ (List.range 8).map (fun i => w / 2 ^ (28 - 4 * i) % 16) →
      y < 16 := by
    intro w y hy
    simp only [List.mem_map] at hy
    obtain ⟨i, _, rfl⟩ := hy
    exact Nat.mod_lt _ (by norm_num)
  simp only [sha1digits, hw, List.map_cons, List.map_nil, List.foldr_cons, List.foldr_nil,
    List.append_nil, List.mem_append] at hx
  rcases hx with h1 | h1 | h1 | h1 | h1 <;> exact hgen _ _ h1

theorem safeId_not_injective :
    ¬(∀ u v : List Char, u ≠ v → safeId u ≠ safeId v) := by
  intro h
  let f : ℕ → (Fin 40 → Fin 16) := fun n i =>
    ⟨(sha1digits (List.replicate n 'a')).getD i 0 % 16, Nat.mod_lt _ (by norm_num)⟩
  obtain ⟨n, m, hnm, hfeq⟩ := Finite.exists_ne_map_eq_of_infinite f
  have hdig : sha1digits (List.replicate n 'a') = sha1digits (List.replicate m 'a') := by
    apply List.ext_getElem
    · rw [sha1digits_length, sha1digits_length]
    · intro i h1 h2
      have hlen : i < 40 := by rw [sha1digits_length] at h1; exact h1
      have hcf := congrFun hfeq ⟨i, hlen⟩
      have hval := congrArg Fin.val hcf
      simp only [f] at hval
      rw [List.getD_eq_getElem _ 0 h1, List.getD_eq_getElem _ 0 h2] at hval
      have hl1 : (sha1digits (List.replicate n 'a'))[i] < 16 :=
        sha1digits_lt _ _ (List.getElem_mem h1)
      have hl2 : (sha1digits (List.replicate m 'a'))[i] < 16 :=
        sha1digits_lt _ _ (List.getElem_mem h2)
      rw [Nat.mod_eq_of_lt hl1, Nat.mod_eq_of_lt hl2] at hval
      exact hval
  have hid : safeId (List.replicate n 'a') = safeId (List.replicate m 'a') := by
    unfold safeId sha1hex
    rw [hdig]
  have hur : (List.replicate n 'a' : List Char) ≠ List.replicate m 'a' := by
    intro hrr
    apply hnm
    have := congrArg List.length hrr
    simpa using this
  exact h _ _ hur hid

/-! ### Submit-variant iteration (for C10) -/

/-- Iterate the limiter-guarded `/submit` variant on URL-less requests at one
instant. -/
def runVariantNoUrl (cap : ℚ) (now : ℤ) : Nat → Option Bucket → List VariantOut × Option Bucket
  | 0, b => ([], b)
  | n + 1, b =>
    let r := submitVariant cap now b false
    let rest := runVariantNoUrl cap now n (some r.2)
    (r.1 :: rest.1, rest.2)

theorem submitVariant_noUrl_spend (cap : ℚ) (now : ℤ) (m : ℚ) (h1 : 1 ≤ m)
    (hm : m ≤ cap) :
    submitVariant cap now (some ⟨m, now⟩) false = (.missingUrl, ⟨m - 1, now⟩) := by
  unfold submitVariant
  rw [allow_same_instant_spend cap now m h1 hm]
  simp

theorem submitVariant_none (cap : ℚ) (now : ℤ) (hasUrl : Bool) :
    submitVariant cap now none hasUrl = submitVariant cap now (some ⟨cap, now⟩) hasUrl := rfl

theorem runVariantNoUrl_full (cap : ℚ) (now : ℤ) :
    ∀ (k : ℕ) (m : ℚ), (k : ℚ) ≤ m → m ≤ cap →
    runVariantNoUrl cap now k (some ⟨m, now⟩) =
      (List.replicate k .missingUrl, some ⟨m - k, now⟩) := by
  intro k
  induction k with
  | zero => intro m _ _; simp [runVariantNoUrl]
  | succ k ih =>
    intro m hk hm
    have h1 : (1 : ℚ) ≤ m := by
      have : ((k : ℚ) + 1) ≤ m := by push_cast at hk ⊢; linarith
      have hk0 : (0 : ℚ) ≤ (k : ℚ) := by positivity
      linarith
    rw [runVariantNoUrl]
    simp only [submitVariant_noUrl_spend cap now m h1 hm]
    rw [ih (m - 1) (by push_cast at hk ⊢; linarith) (by linarith)]
    simp only [List.replicate_succ]
    have harith : m - 1 - (k : ℚ) = m - (((k + 1 : ℕ) : ℚ)) := by push_cast; ring
    rw [harith]

/-! ## Claims -/

/-- C1: token-bucket admission.  For every capacity `C`, a fresh bucket
serves exactly `C` same-instant admits followed by a denial; after a full
refill interval (60000 ms) of idleness the refill computation returns the
bucket to exactly `C` tokens; and the token count after any call never
exceeds `C`. -/
theorem C1_token_bucket (C : ℕ) (now ts : ℤ) (m : ℚ) :
    (runAllow (C : ℚ) now (C + 1) none).1 = List.replicate C true ++ [false]
    ∧ (0 ≤ m → (60000 : ℤ) ≤ now - ts →
        refillTokens (C : ℚ) now ⟨m, ts⟩ = (C : ℚ))
    ∧ (∀ b : Option Bucket, ((allow (C : ℚ) now b).2).tokens ≤ (C : ℚ)) := by
  refine ⟨?_, ?_, ?_⟩
  · cases C with
    | zero =>
      rw [runAllow, allow_none]
      rw [allow_same_instant_deny _ now _ (by norm_num) (by simp)]
      simp [runAllow]
    | succ k =>
      rw [runAllow, allow_none]
      have hk0 : (0 : ℚ) ≤ (k : ℚ) := by positivity
      have hcast : (1 : ℚ) ≤ (((k + 1 : ℕ)) : ℚ) := by push_cast; linarith
      rw [allow_same_instant_spend _ now _ hcast le_rfl]
      have hsplit := runAllow_add (((k + 1 : ℕ)) : ℚ) now k 1
        (some ⟨(((k + 1 : ℕ)) : ℚ) - 1, now⟩)
      have hfull := runAllow_full (((k + 1 : ℕ)) : ℚ) now k ((((k + 1 : ℕ)) : ℚ) - 1)
        (by push_cast; linarith) (by push_cast; linarith)
      have hz : (((k + 1 : ℕ)) : ℚ) - 1 - (k : ℚ) = 0 := by push_cast; ring
      rw [hfull, hz] at hsplit
      have hdeny : runAllow (((k + 1 : ℕ)) : ℚ) now 1 (some ⟨0, now⟩) =
          ([false], some ⟨0, now⟩) := by
        rw [runAllow]
        rw [allow_same_instant_deny _ now 0 (by norm_num) (by positivity)]
        simp [runAllow]
      rw [hdeny] at hsplit
      simp only [hsplit, List.replicate_succ]
      simp
  · intro hm hidle
    exact refillTokens_full (C : ℚ) now ts m hm (by positivity) hidle
  · intro b
    exact allow_tokens_le (C : ℚ) now b

theorem C1_token_bucket_witness :
    ((0 : ℚ) ≤ (2 : ℚ) ∧ (60000 : ℤ) ≤ (60000 : ℤ) - 0)
    ∧ refillTokens ((6 : ℕ) : ℚ) 60000 ⟨2, 0⟩ = ((6 : ℕ) : ℚ) :=
  ⟨⟨by norm_num, by norm_num⟩,
    (C1_token_bucket 6 60000 0 2).2.1 (by norm_num) (by norm_num)⟩

/-- C10: in the limiter-guarded `/submit` variants the limiter runs before
the `missing_url` validation, so a URL-less request consumes a token whenever
one is available; `C` URL-less same-instant requests from a fresh bucket
exhaust it, and the next request — even one carrying a URL — is denied with
`rate_limited`. -/
theorem C10_limiter_before_validation (C : ℕ) (now : ℤ) (m : ℚ) :
    (1 ≤ m → m ≤ (C : ℚ) →
      submitVariant (C : ℚ) now (some ⟨m, now⟩) false = (.missingUrl, ⟨m - 1, now⟩))
    ∧ (runVariantNoUrl (C : ℚ) now C none).1 = List.replicate C .missingUrl
    ∧ submitVariant (C : ℚ) now ((runVariantNoUrl (C : ℚ) now C none).2) true =
        (.rateLimited, ⟨0, now⟩) := by
  have hrun : ∀ k : ℕ, k = C → runVariantNoUrl (C : ℚ) now C none =
      (List.replicate C .missingUrl, if C = 0 then none else some ⟨0, now⟩) := by
    intro k _
    cases C with
    | zero => simp [runVariantNoUrl]
    | succ j =>
      rw [runVariantNoUrl, submitVariant_none]
      have h1 : (1 : ℚ) ≤ ((j + 1 : ℕ) : ℚ) := by push_cast; linarith [Nat.cast_nonneg (α := ℚ) j]
      rw [submitVariant_noUrl_spend (((j + 1 : ℕ) : ℚ)) now _ h1 le_rfl]
      have hj : ((j : ℚ)) ≤ ((j + 1 : ℕ) : ℚ) - 1 := by push_cast; linarith
      have hj2 : ((j + 1 : ℕ) : ℚ) - 1 ≤ ((j + 1 : ℕ) : ℚ) := by linarith
      rw [runVariantNoUrl_full (((j + 1 : ℕ) : ℚ)) now j _ hj hj2]
      have hz : ((j + 1 : ℕ) : ℚ) - 1 - (j : ℚ) = 0 := by push_cast; ring
      rw [hz]
      simp [List.replicate_succ]
  refine ⟨?_, ?_, ?_⟩
  · intro h1 hm
    exact submitVariant_noUrl_spend (C : ℚ) now m h1 hm
  · rw [hrun C rfl]
  · rw [hrun C rfl]
    cases C with
    | zero =>
      simp only [reduceIte]
      rw [submitVariant_none]
      unfold submitVariant
      rw [allow_same_instant_deny _ now _ (by norm_num) (by simp)]
      simp
    | succ j =>
      simp only [Nat.succ_ne_zero, reduceIte]
      unfold submitVariant
      rw [allow_same_instant_deny _ now 0 (by norm_num) (by positivity)]
      simp

theorem C10_limiter_before_validation_witness :
    ((1 : ℚ) ≤ (6 : ℚ) ∧ (6 : ℚ) ≤ ((6 : ℕ) : ℚ))
    ∧ submitVariant ((6 : ℕ) : ℚ) 0 (some ⟨6, 0⟩) false = (.missingUrl, ⟨5, 0⟩) := by
  refine ⟨⟨by norm_num, by norm_num⟩, ?_⟩
  have h := (C10_limiter_before_validation 6 0 6).1 (by norm_num) (by norm_num)
  have h56 : (6 : ℚ) - 1 = 5 := by norm_num
  rw [h56] at h
  exact h

/-! ### Submission-path lemmas (index.js) -/

theorem afterFetch_attempts (url : List Char) (resp : PageResp) (n : Nat)
    (sinkOk : Bool) : (afterFetch url resp n sinkOk).fetchAttempts = n := by
  unfold afterFetch
  split
  · rfl
  · dsimp only
    split
    · rfl
    · split <;> rfl

/-- The results in which the handler went on to extraction (word gate or
upsert), as opposed to robots skip, backoff failure or HTTP error. -/
def proceededToExtraction : SubmitResult → Bool
  | .skippedTooShort => true
  | .resOk => true
  | .errIndexFailed => true
  | _ => false

theorem afterFetch_proceeded (url : List Char) (resp : PageResp) (n : Nat)
    (sinkOk : Bool) (h : respOk resp = true) :
    proceededToExtraction (afterFetch url resp n sinkOk).result = true := by
  unfold afterFetch
  rw [h]
  simp only [Bool.not_true, Bool.false_eq_true, reduceIte]
  split
  · rfl
  · split <;> rfl

theorem submitIndex_blocked (url : List Char) (robots : Option (Bool × List Char))
    (pages : Nat → PageResp) (sinkOk : Bool)
    (hrob : disallowAll (robotsTextOf robots) = true) :
    submitIndex url robots pages sinkOk = ⟨.skippedBlocked, 0, false, none⟩ := by
  unfold submitIndex
  rw [hrob]
  simp

theorem submitIndex_no_retry (url : List Char) (robots : Option (Bool × List Char))
    (pages : Nat → PageResp) (sinkOk : Bool)
    (hrob : disallowAll (robotsTextOf robots) = false)
    (h0 : ¬((pages 0).status = 429 ∨ (pages 0).status = 503)) :
    submitIndex url robots pages sinkOk = afterFetch url (pages 0) 1 sinkOk := by
  obtain ⟨h1, h2⟩ := not_or.mp h0
  unfold submitIndex
  rw [hrob]
  simp [h1, h2]

theorem submitIndex_retry (url : List Char) (robots : Option (Bool × List Char))
    (pages : Nat → PageResp) (sinkOk : Bool)
    (hrob : disallowAll (robotsTextOf robots) = false)
    (h0 : (pages 0).status = 429 ∨ (pages 0).status = 503)
    (h1 : ¬((pages 1).status = 429 ∨ (pages 1).status = 503)) :
    submitIndex url robots pages sinkOk = afterFetch url (pages 1) 2 sinkOk := by
  obtain ⟨h1a, h1b⟩ := not_or.mp h1
  unfold submitIndex
  rw [hrob]
  rcases h0 with h0 | h0 <;> simp [h0, h1a, h1b]

theorem submitIndex_retry_limited (url : List Char) (robots : Option (Bool × List Char))
    (pages : Nat → PageResp) (sinkOk : Bool)
    (hrob : disallowAll (robotsTextOf robots) = false)
    (h0 : (pages 0).status = 429 ∨ (pages 0).status = 503)
    (h1 : (pages 1).status = 429 ∨ (pages 1).status = 503) :
    submitIndex url robots pages sinkOk = ⟨.errRateLimited, 2, false, none⟩ := by
  unfold submitIndex
  rw [hrob]
  rcases h0 with h0 | h0 <;> rcases h1 with h1 | h1 <;> simp [h0, h1]

/-- C2: backoff on the submission path.  When the robots gate passes and the
first GET returns 429 or 503, a 429/503 retry yields `rate_limited` after
exactly two attempts, a 200 retry proceeds to extraction after exactly two
attempts, at most two attempts are ever made, and the outcome depends only on
the first two responses (no third attempt is consulted). -/
theorem C2_backoff (url : List Char) (robots : Option (Bool × List Char))
    (pages : Nat → PageResp) (sinkOk : Bool)
    (hrob : disallowAll (robotsTextOf robots) = false)
    (h0 : (pages 0).status = 429 ∨ (pages 0).status = 503) :
    (((pages 1).status = 429 ∨ (pages 1).status = 503) →
      submitIndex url robots pages sinkOk = ⟨.errRateLimited, 2, false, none⟩)
    ∧ ((pages 1).status = 200 →
      (submitIndex url robots pages sinkOk).fetchAttempts = 2 ∧
      proceededToExtraction (submitIndex url robots pages sinkOk).result = true)
    ∧ (submitIndex url robots pages sinkOk).fetchAttempts ≤ 2
    ∧ (∀ pages' : Nat → PageResp, pages 0 = pages' 0 → pages 1 = pages' 1 →
      submitIndex url robots pages sinkOk = submitIndex url robots pages' sinkOk) := by
  refine ⟨?_, ?_, ?_, ?_⟩
  · intro h1
    exact submitIndex_retry_limited url robots pages sinkOk hrob h0 h1
  · intro h1
    have hnot : ¬((pages 1).status = 429 ∨ (pages 1).status = 503) := by
      rw [h1]; omega
    rw [submitIndex_retry url robots pages sinkOk hrob h0 hnot]
    refine ⟨afterFetch_attempts _ _ _ _, ?_⟩
    apply afterFetch_proceeded
    unfold respOk
    rw [h1]
    decide
  · by_cases h1 : (pages 1).status = 429 ∨ (pages 1).status = 503
    · rw [submitIndex_retry_limited url robots pages sinkOk hrob h0 h1]
    · rw [submitIndex_retry url robots pages sinkOk hrob h0 h1,
        afterFetch_attempts]
  · intro pages' he0 he1
    unfold submitIndex
    rw [← he0, ← he1]

theorem C2_backoff_witness :
    (disallowAll (robotsTextOf none) = false
      ∧ (((fun _ => ⟨429, []⟩ : Nat → PageResp) 0).status = 429
          ∨ ((fun _ => ⟨429, []⟩ : Nat → PageResp) 0).status = 503))
    ∧ submitIndex "u".data none (fun _ => ⟨429, []⟩) true =
        ⟨.errRateLimited, 2, false, none⟩ :=
  ⟨⟨by decide, Or.inl rfl⟩,
    (C2_backoff "u".data none (fun _ => ⟨429, []⟩) true (by decide) (Or.inl rfl)).1
      (Or.inl rfl)⟩

/-- C3: robots exclusion on the submission path.  A reachable robots.txt
with a line that trims and lowercases to `disallow: /` yields
`skipped: blocked` with zero page fetches; when the gate does not fire
(including the unreachable-robots fail-open case) at least one page GET is
made. -/
theorem C3_robots (url : List Char) (pages : Nat → PageResp) (sinkOk : Bool) :
    (∀ txt, disallowAll txt = true →
      submitIndex url (some (true, txt)) pages sinkOk =
        ⟨.skippedBlocked, 0, false, none⟩)
    ∧ (∀ robots, disallowAll (robotsTextOf robots) = false →
        1 ≤ (submitIndex url robots pages sinkOk).fetchAttempts)
    ∧ 1 ≤ (submitIndex url none pages sinkOk).fetchAttempts := by
  have hmain : ∀ robots, disallowAll (robotsTextOf robots) = false →
      1 ≤ (submitIndex url robots pages sinkOk).fetchAttempts := by
    intro robots hrob
    by_cases h0 : (pages 0).status = 429 ∨ (pages 0).status = 503
    · by_cases h1 : (pages 1).status = 429 ∨ (pages 1).status = 503
      · rw [submitIndex_retry_limited url robots pages sinkOk hrob h0 h1]
        decide
      · rw [submitIndex_retry url robots pages sinkOk hrob h0 h1, afterFetch_attempts]
        omega
    · rw [submitIndex_no_retry url robots pages sinkOk hrob h0, afterFetch_attempts]
  refine ⟨?_, hmain, ?_⟩
  · intro txt htxt
    apply submitIndex_blocked
    simpa [robotsTextOf] using htxt
  · exact hmain none (by decide)

theorem C3_robots_witness :
    disallowAll "User-agent: *\n DISALLOW: / ".data = true
    ∧ submitIndex "u".data (some (true, "User-agent: *\n DISALLOW: / ".data))
        (fun _ => ⟨200, []⟩) true = ⟨.skippedBlocked, 0, false, none⟩ :=
  ⟨by decide,
    (C3_robots "u".data (fun _ => ⟨200, []⟩) true).1
      "User-agent: *\n DISALLOW: / ".data (by decide)⟩

/-- A 30-token page body used as a concrete accepted submission. -/
def html30 : List Char :=
  "w w w w w w w w w w w w w w w w w w w w w w w w w w w w w w".data

/-- C5: word-count gate on the submission path.  For a successfully fetched
page (status 200, robots gate passed), extracted text with fewer than 30
whitespace-delimited tokens is skipped as `too_short` and nothing is
upserted; with 30 or more tokens the document goes to the upsert. -/
theorem C5_word_gate (url : List Char) (robots : Option (Bool × List Char))
    (pages : Nat → PageResp) (sinkOk : Bool)
    (hrob : disallowAll (robotsTextOf robots) = false)
    (h200 : (pages 0).status = 200) :
    (wcIndex (extractTextIndex (pages 0).html) < 30 →
      submitIndex url robots pages sinkOk = ⟨.skippedTooShort, 1, false, none⟩)
    ∧ (30 ≤ wcIndex (extractTextIndex (pages 0).html) →
      (submitIndex url robots pages sinkOk).upsertCalled = true) := by
  have h0 : ¬((pages 0).status = 429 ∨ (pages 0).status = 503) := by
    rw [h200]; omega
  have hok : respOk (pages 0) = true := by
    unfold respOk
    rw [h200]
    decide
  rw [submitIndex_no_retry url robots pages sinkOk hrob h0]
  constructor
  · intro hwc
    unfold afterFetch
    rw [hok]
    simp only [Bool.not_true, Bool.false_eq_true, reduceIte]
    rw [if_pos hwc]
  · intro hwc
    unfold afterFetch
    rw [hok]
    simp only [Bool.not_true, Bool.false_eq_true, reduceIte]
    rw [if_neg (by omega)]
    split <;> rfl

theorem C5_word_gate_witness :
    (disallowAll (robotsTextOf none) = false
      ∧ ((fun _ => ⟨200, html30⟩ : Nat → PageResp) 0).status = 200
      ∧ 30 ≤ wcIndex (extractTextIndex ((fun _ => ⟨200, html30⟩ : Nat → PageResp) 0).html))
    ∧ (submitIndex "u".data none (fun _ => ⟨200, html30⟩) true).upsertCalled = true :=
  ⟨⟨by decide, rfl, by decide⟩,
    (C5_word_gate "u".data none (fun _ => ⟨200, html30⟩) true (by decide) rfl).2
      (by decide)⟩

/-! ### Concrete crawl environment for C4: a seed page with ten same-host
links, every other URL a plain leaf page. -/

def leafPage4 : PageInfo := ⟨true, true, [], "body text".data, []⟩

def seedPage4 : PageInfo :=
  ⟨true, true, [], "seed".data,
    [⟨"p1".data, "h".data, true⟩, ⟨"p2".data, "h".data, true⟩,
     ⟨"p3".data, "h".data, true⟩, ⟨"p4".data, "h".data, true⟩,
     ⟨"p5".data, "h".data, true⟩, ⟨"p6".data, "h".data, true⟩,
     ⟨"p7".data, "h".data, true⟩, ⟨"p8".data, "h".data, true⟩,
     ⟨"p9".data, "h".data, true⟩, ⟨"p10".data, "h".data, true⟩]⟩

def env4 : List Char → Option PageInfo :=
  fun u => if u = "s".data then some seedPage4 else some leafPage4

/-- C4: traversal bound and order.  With `maxPages = 3`, `maxDepth = 1` and a
seed linking to ten same-host pages, exactly three URLs are visited — the
seed and the first two links, in FIFO order.  In general the visited list
never exceeds `maxPages` entries, stays duplicate-free, and the loop is
already stopped exactly when the frontier is empty or the visited count has
reached `maxPages`. -/
theorem C4_traversal_bound :
    (crawl env4 "s".data "h".data 3 1 20).1 = ["s".data, "p1".data, "p2".data]
    ∧ (∀ (env : List Char → Option PageInfo) (domain : List Char)
        (mp md fuel : Nat) (q : List CrawlTask) (seen : List (List Char))
        (docs : List CrawlDoc), seen.length ≤ mp →
        ((crawlGo env domain mp md fuel q seen docs).1).length ≤ mp)
    ∧ (∀ (env : List Char → Option PageInfo) (domain : List Char)
        (mp md fuel : Nat) (q : List CrawlTask) (seen : List (List Char))
        (docs : List CrawlDoc), seen.Nodup →
        ((crawlGo env domain mp md fuel q seen docs).1).Nodup)
    ∧ (∀ (env : List Char → Option PageInfo) (domain : List Char)
        (mp md fuel : Nat) (q : List CrawlTask) (seen : List (List Char))
        (docs : List CrawlDoc), q = [] ∨ mp ≤ seen.length →
        crawlGo env domain mp md fuel q seen docs = (seen, docs)) := by
  refine ⟨by decide, ?_, ?_, ?_⟩
  · intro env domain mp md fuel q seen docs h
    exact crawlGo_seen_le env domain mp md fuel q seen docs h
  · intro env domain mp md fuel q seen docs h
    exact crawlGo_seen_nodup env domain mp md fuel q seen docs h
  · intro env domain mp md fuel q seen docs h
    exact crawlGo_stop env domain mp md fuel q seen docs h

theorem C4_traversal_bound_witness :
    ([] : List (List Char)).length ≤ 3
    ∧ ((crawlGo env4 "h".data 3 1 20 [⟨"s".data, 0⟩] [] []).1).length ≤ 3 :=
  ⟨by decide,
    C4_traversal_bound.2.1 env4 "h".data 3 1 20 [⟨"s".data, 0⟩] [] [] (by decide)⟩

/-- C6 counterexample: the claim asserts entity decoding (with comment
removal and the 8000 cap) for every extracted text, but the `index.js`
submission extraction leaves `&amp;` undecoded (the `fetchPageText`
normalization decodes it), and lets comment content through when the comment
body contains `>`. -/
theorem C6_text_normalization_counterexample :
    extractTextIndex "&amp;".data = "&amp;".data
    ∧ fptText "&amp;".data = "&".data
    ∧ extractTextIndex "&amp;".data ≠ fptText "&amp;".data
    ∧ extractTextIndex "<!-- a > b -->".data = "b -->".data :=
  ⟨by decide, by decide, by decide, by decide⟩

/-- C6 (amended): the full normalization chain — script/style/comment
removal, entity decoding, whitespace collapse, trim, 8000-character cap —
is the `fetchPageText` extractor of the `part_000`/`part_003`/`part_004`
variants; its output is capped at 8000 characters and has no two adjacent
whitespace characters, and the pre-cap text is trimmed on both ends.  The
`index.js` extraction only removes script/style blocks and tags and
collapses/trims. -/
theorem C6_text_normalization_amended :
    (∀ html, (fptText html).length ≤ 8000)
    ∧ (∀ html, noWsAdj (fptText html))
    ∧ (∀ html, startsWs (fptClean html) = false ∧ endsWs (fptClean html) = false)
    ∧ fptText "<script>x</script>A&amp;B<!--z--> <b>ok</b>".data = "A&B ok".data
    ∧ extractTextIndex "<p>Hello <b>world</b></p><script>var x=1;</script>".data =
        "Hello world".data := by
  refine ⟨?_, ?_, ?_, by decide, by decide⟩
  · intro html
    unfold fptText
    rw [List.length_take]
    exact min_le_left _ _
  · intro html
    unfold fptText fptClean noWsAdj
    exact List.Chain'.take (noWsAdj_jsTrim _ (noWsAdj_collapseWs _)) _
  · intro html
    unfold fptClean
    exact ⟨startsWs_jsTrim _, endsWs_jsTrim _⟩

/-- A `<title>` element whose text is 250 characters long. -/
def html250 : List Char :=
  "<title>".data ++ List.replicate 250 'a' ++ "</title>".data

set_option maxRecDepth 40000 in
/-- C7 counterexample: the claim promises truncation of long titles to their
first 200 characters, but the `index.js` title regex
(`([^<]{0,200})</title>`) cannot match a 250-character title at all and
yields the empty string, while `fetchPageText` returns the first 200
characters. -/
theorem C7_title_counterexample :
    titleIndex html250 = []
    ∧ fptTitle html250 = List.replicate 200 'a'
    ∧ (List.replicate 200 'a' : List Char) ≠ [] :=
  ⟨by decide, by decide, by decide⟩

set_option maxRecDepth 40000 in
/-- C7 (amended): the `fetchPageText` extractor returns the first `<title>`
capture trimmed, whitespace-collapsed and truncated to 200 characters (a
250-character title yields its first 200), and the empty string when no
`<title` occurs; the `index.js` regex instead fails to match any title text
longer than 200 characters, producing the empty string (and applies no
trim/collapse to what it captures). -/
theorem C7_title_amended :
    (∀ html, (fptTitle html).length ≤ 200)
    ∧ (∀ html, hasTitleTag html = false → fptTitle html = [] ∧ titleIndex html = [])
    ∧ fptTitle "<TITLE lang=x>  Hi   there </TITLE>".data = "Hi there".data
    ∧ fptTitle html250 = List.replicate 200 'a' := by
  refine ⟨?_, ?_, by decide, by decide⟩
  · intro html
    unfold fptTitle
    split
    · rw [List.length_take]
      exact min_le_left _ _
    · simp
  · intro html h
    have h1 := scanFirst_none titleAtFP titleAtFP_none (html.length + 1) html h
    have h2 := scanFirst_none titleAtIndex titleAtIndex_none (html.length + 1) html h
    constructor
    · unfold fptTitle
      rw [h1]
    · unfold titleIndex
      rw [h2]
      rfl

theorem C7_title_amended_witness :
    hasTitleTag "no title here".data = false
    ∧ fptTitle "no title here".data = []
    ∧ titleIndex "no title here".data = [] :=
  ⟨by decide, (C7_title_amended.2.1 "no title here".data (by decide)).1,
    (C7_title_amended.2.1 "no title here".data (by decide)).2⟩

/-- A crawl environment whose pages have an empty body text. -/
def env8 : List Char → Option PageInfo := fun _ => some ⟨true, true, [], [], []⟩

/-- C8 counterexample: a crawled page with empty body text produces a
document with `word_count = 1` (`"".split(" ").length`), not the claimed 0
(the token count of the empty text). -/
theorem C8_word_count_counterexample :
    ((crawl env8 "s".data "h".data 1 0 5).2.map (fun d => (d.text, d.word_count)))
      = [([], 1)]
    ∧ tokenCount [] = 0
    ∧ (1 : Nat) ≠ 0 :=
  ⟨by decide, by decide, by decide⟩

/-- C8 (amended): on the submission path every produced document satisfies
`word_count = tokenCount text` (including `0` for empty text, thanks to the
`text ? … : 0` guard); on the crawl path `word_count` equals the token count
for nonempty text but is `1` when the text is empty, because
`"".split(" ")` has length 1. -/
theorem C8_word_count_amended :
    (∀ (url : List Char) (resp : PageResp) (n : Nat) (sinkOk : Bool) (d : IndexDoc),
      (afterFetch url resp n sinkOk).doc = some d →
      d.word_count = tokenCount d.text)
    ∧ (∀ (env : List Char → Option PageInfo) (domain : List Char)
        (mp md fuel : Nat) (q : List CrawlTask) (seen : List (List Char)),
        ∀ d ∈ (crawlGo env domain mp md fuel q seen []).2,
          d.word_count = if d.text = [] then 1 else tokenCount d.text) := by
  constructor
  · intro url resp n sinkOk d hd
    have hst : startsWs (extractTextIndex resp.html) = false := by
      unfold extractTextIndex
      exact startsWs_jsTrim _
    have hen : endsWs (extractTextIndex resp.html) = false := by
      unfold extractTextIndex
      exact endsWs_jsTrim _
    unfold afterFetch at hd
    cases hok : respOk resp with
    | false =>
      rw [hok] at hd
      simp at hd
    | true =>
      rw [hok] at hd
      simp only [Bool.not_true, Bool.false_eq_true, reduceIte] at hd
      by_cases hwc : wcIndex (extractTextIndex resp.html) < 30
      · rw [if_pos hwc] at hd
        simp at hd
      · rw [if_neg hwc] at hd
        have hd' : d = ⟨safeId url, url,
            if titleIndex resp.html = [] then url else titleIndex resp.html,
            extractTextIndex resp.html, wcIndex (extractTextIndex resp.html)⟩ := by
          cases sinkOk <;> simpa using hd.symm
        rw [hd']
        exact wcIndex_eq_tokenCount (extractTextIndex resp.html) hst hen
  · intro env domain mp md fuel q seen d hd
    exact crawlGo_docs_wc env domain mp md fuel q seen [] (by simp) d hd

theorem C8_word_count_amended_witness :
    (afterFetch "u".data ⟨200, html30⟩ 1 true).doc =
      some ⟨safeId "u".data, "u".data, "u".data, extractTextIndex html30,
        wcIndex (extractTextIndex html30)⟩
    ∧ wcIndex (extractTextIndex html30) = tokenCount (extractTextIndex html30) := by
  refine ⟨rfl, ?_⟩
  have h := C8_word_count_amended.1 "u".data ⟨200, html30⟩ 1 true
    ⟨safeId "u".data, "u".data, "u".data, extractTextIndex html30,
      wcIndex (extractTextIndex html30)⟩ rfl
  exact h

/-- C9 counterexample: the claim promises the same id on every ingestion
path, but for any URL (here a concrete one) the `index.js`/`crawler.js` id
carries the `"u_"` prefix while the limiter-variant `/submit` id is the bare
hex digest — the two differ in length, so re-submission through the other
variant would not hit the same index entry. -/
theorem C9_fingerprint_counterexample :
    safeId "https://example.com/".data ≠ variantSubmitId "https://example.com/".data := by
  intro h
  have hlen : ("u_".data ++ sha1hex "https://example.com/".data).length =
      (sha1hex "https://example.com/".data).length := congrArg List.length h
  rw [List.length_append] at hlen
  have h2 : ("u_".data).length = 2 := rfl
  omega

/-- C9 (amended): the document id is a pure deterministic function of the
URL within each scheme — `index.js` and `crawler.js` agree on
`"u_" + sha1hex(url)`, the limiter variants use bare `sha1hex(url)` — but
the two schemes disagree on every URL, and distinct URLs are not guaranteed
distinct ids: the id function cannot be injective on all strings (its image
is finite). -/
theorem C9_fingerprint_amended :
    (∀ u : List Char, crawlDocId u = safeId u)
    ∧ (∀ u : List Char, safeId u ≠ variantSubmitId u)
    ∧ ¬(∀ u v : List Char, u ≠ v → safeId u ≠ safeId v) := by
  refine ⟨fun u => rfl, ?_, safeId_not_injective⟩
  intro u h
  have hlen : ("u_".data ++ sha1hex u).length = (sha1hex u).length :=
    congrArg List.length h
  rw [List.length_append] at hlen
  have h2 : ("u_".data).length = 2 := rfl
  omega

theorem C9_fingerprint_amended_witness :
    crawlDocId "https://a.example/".data = safeId "https://a.example/".data :=
  C9_fingerprint_amended.1 "https://a.example/".data

end EngineApi


